import Mathlib

/-!
Shallow embedding of the LunarLander texture utilities
(`scripts/remove_texture_pattern.py` and `scripts/create_tiled_texture.py`).

Grids are functions `Fin h → Fin w → K`.  The mask-construction code of
`remove_texture_pattern.py` performs only field arithmetic and order
comparisons, so it is embedded generically over a linear ordered field `K`
(instantiated at `ℚ` for concrete evaluation, and at `ℝ` inside the FFT
pipeline).  The FFT layer itself is embedded over `ℂ` with exact complex
arithmetic, modelling NumPy's floating-point transforms by their ideal
mathematical definitions.
-/

/-- Insert `a` into an ascending-sorted list, keeping it sorted. -/
def insertSorted {K : Type} [LinearOrderedField K] (a : K) : List K → List K
  | [] => [a]
  | b :: l => if a ≤ b then a :: b :: l else b :: insertSorted a l

/-- Ascending sort (insertion sort); the order statistics used by
`np.percentile`. -/
def sortList {K : Type} [LinearOrderedField K] : List K → List K
  | [] => []
  | a :: l => insertSorted a (sortList l)

/-- `np.percentile(l, q)` with NumPy's default linear-interpolation method:
sort ascending, take the virtual position `q/100 * (n-1)` and linearly
interpolate between the two neighbouring order statistics
(`threshold = np.percentile(...)`, line 146 of `remove_texture_pattern.py`). -/
def npPercentile {K : Type} [LinearOrderedField K] [FloorRing K] (l : List K) (q : K) : K :=
  let s : List K := sortList l
  let n : ℕ := s.length
  let pos : K := q / 100 * ((n : K) - 1)
  let i : ℕ := (Int.floor pos).toNat
  let lower : K := s.getD i 0
  let upper : K := s.getD (i + 1) lower
  lower + (pos - (i : K)) * (upper - lower)

/-- The protected disc around the DC position `(h//2, w//2)`: the boolean
`center_mask` of lines 62 and 143 of `remove_texture_pattern.py`,
`(y - center_y)**2 + (x - center_x)**2 <= protect_center**2`. -/
def inDisc {h w : ℕ} (pc : ℕ) (y : Fin h) (x : Fin w) : Bool :=
  decide (((y.val : ℤ) - ((h / 2 : ℕ) : ℤ)) ^ 2 + ((x.val : ℤ) - ((w / 2 : ℕ) : ℤ)) ^ 2
    ≤ (pc : ℤ) ^ 2)

/-- The flattened magnitude grid with every value inside the protected disc
replaced by `0` (`magnitude_for_threshold[center_mask] = 0`, lines 141-144).
Row-major order, matching NumPy's flattening. -/
def magnitudeForThreshold {K : Type} [LinearOrderedField K] {h w : ℕ}
    (mag : Fin h → Fin w → K) (pc : ℕ) : List K :=
  (List.finRange h).flatMap fun y =>
    (List.finRange w).map fun x => if inDisc pc y x then 0 else mag y x

/-- The peak-detection threshold of `fft_filter_channel` (line 146): the
`q`-th percentile of the magnitude grid after zeroing the protected disc. -/
def thresholdOfMag {K : Type} [LinearOrderedField K] [FloorRing K] {h w : ℕ}
    (mag : Fin h → Fin w → K) (q : K) (pc : ℕ) : K :=
  npPercentile (magnitudeForThreshold mag pc) q

/-- Percentile over only the magnitudes strictly outside the protected disc.
Modelled from the spec's words (claim C2): the in-disc bins "do not
participate in the percentile computation at all".  This is the comparison
definition for the refinement claim; the source instead zeroes the disc and
keeps the bins in the statistics (`thresholdOfMag`). -/
def thresholdExcludingDisc {K : Type} [LinearOrderedField K] [FloorRing K] {h w : ℕ}
    (mag : Fin h → Fin w → K) (q : K) (pc : ℕ) : K :=
  npPercentile
    ((List.finRange h).flatMap fun y =>
      ((List.finRange w).filter fun x => !(inDisc pc y x)).map fun x => mag y x) q

/-- Peak detection of `fft_filter_channel` (lines 149-152):
`peaks = magnitude > threshold` followed by `peaks[center_mask] = False`. -/
def isPeak {K : Type} [LinearOrderedField K] [FloorRing K] {h w : ℕ}
    (mag : Fin h → Fin w → K) (q : K) (pc : ℕ) (y : Fin h) (x : Fin w) : Bool :=
  decide (thresholdOfMag mag q pc < mag y x) && !(inDisc pc y x)

/-- The list of detected peak coordinates in row-major order, as produced by
`np.where(peaks)` (line 155). -/
def peakCoords {K : Type} [LinearOrderedField K] [FloorRing K] {h w : ℕ}
    (mag : Fin h → Fin w → K) (q : K) (pc : ℕ) : List (Fin h × Fin w) :=
  (List.finRange h).flatMap fun y =>
    ((List.finRange w).filter fun x => isPeak mag q pc y x).map fun x => (y, x)

/-- The multiplicative contribution of the notch around peak `p` to the mask
at bin `(y, x)` (lines 158-165).  The source visits the square neighbourhood
`dy, dx ∈ [-r, r]` of `p` and, for `dist = sqrt(dy²+dx²) ≤ r`, multiplies by
`(dist/r)**2` when `dist > 0` and by `0` otherwise; unvisited bins are
untouched (factor `1`).  `dist ≤ r` is embedded as `dy²+dx² ≤ r²` and
`(dist/r)**2` as `(dy²+dx²)/r²`, which are exactly equal under ideal
arithmetic; the square-neighbourhood bound `|dy| ≤ r ∧ |dx| ≤ r` is implied
by `dy²+dx² ≤ r²`. -/
def notchFactor {K : Type} [LinearOrderedField K] {h w : ℕ}
    (r : ℕ) (p : Fin h × Fin w) (y : Fin h) (x : Fin w) : K :=
  let d2 : ℤ := ((y.val : ℤ) - (p.1.val : ℤ)) ^ 2 + ((x.val : ℤ) - (p.2.val : ℤ)) ^ 2
  if d2 ≤ (r : ℤ) ^ 2 then (if 0 < d2 then (d2 : K) / (r : K) ^ 2 else 0) else 1

/-- One iteration of the peak loop (lines 156-165): multiply the whole mask
pointwise by the notch factors of peak `p`. -/
def applyNotch {K : Type} [LinearOrderedField K] {h w : ℕ}
    (r : ℕ) (p : Fin h × Fin w) (mask : Fin h → Fin w → K) : Fin h → Fin w → K :=
  fun y x => mask y x * notchFactor r p y x

/-- The peak-notch mask of `fft_filter_channel` (lines 133-165): start from
all ones and fold the notch of every detected peak over the grid. -/
def buildPeakMask {K : Type} [LinearOrderedField K] [FloorRing K] {h w : ℕ}
    (mag : Fin h → Fin w → K) (q : K) (r pc : ℕ) : Fin h → Fin w → K :=
  (peakCoords mag q pc).foldl (fun m p => applyNotch r p m) (fun _ _ => 1)

/-- Whether the peak-notch loop ever evaluates the division
`(dist / notch_radius)` of line 165 with a zero denominator.  The division is
evaluated exactly at the visited neighbours with `dist ≤ r` and `dist > 0`
(the `else 0` branch of the conditional expression performs no division), and
its denominator is zero exactly when `r = 0`. -/
def divisionByZeroOccurs {K : Type} [LinearOrderedField K] [FloorRing K] {h w : ℕ}
    (mag : Fin h → Fin w → K) (q : K) (r pc : ℕ) : Bool :=
  (peakCoords mag q pc).any fun p =>
    (List.finRange h).any fun y =>
      (List.finRange w).any fun x =>
        decide (((y.val : ℤ) - (p.1.val : ℤ)) ^ 2 + ((x.val : ℤ) - (p.2.val : ℤ)) ^ 2
            ≤ (r : ℤ) ^ 2 ∧
          0 < ((y.val : ℤ) - (p.1.val : ℤ)) ^ 2 + ((x.val : ℤ) - (p.2.val : ℤ)) ^ 2 ∧
          r = 0)

/-- The per-offset reduction factor of the line policy
(`fft_filter_channel_lines`, lines 72-79 and 88-93), as a function of
`dist = abs(dy)`: `attenuation` within `line_width` of the centre line, then
`attenuation * (line_width*2 - dist)/line_width` up to `2*line_width`, and
`attenuation * 0` beyond. -/
def lineReduction {K : Type} [LinearOrderedField K] (lw : ℕ) (att : K) (dist : ℕ) : K :=
  if dist ≤ lw then att
  else att * (if dist < lw * 2 then ((lw * 2 - dist : ℤ) : K) / (lw : K) else 0)

/-- The accumulated mask factor a single row (resp. column) receives from the
horizontal (resp. vertical) line loop of `fft_filter_channel_lines`
(lines 67-80, resp. 84-94).  The loop runs only when `line_width > 0`, visits
offsets `dy ∈ [-2*line_width, 2*line_width]`, and multiplies the row
`center + dy` (when in bounds) by `1 - reduction`; a row at index `idx` is
visited exactly when `|idx - n//2| ≤ 2*line_width`, and at most once. -/
def axisFactor {K : Type} [LinearOrderedField K] (n lw : ℕ) (att : K) (idx : Fin n) : K :=
  let dist : ℕ := ((idx.val : ℤ) - ((n / 2 : ℕ) : ℤ)).natAbs
  if 0 < lw ∧ dist ≤ lw * 2 then 1 - lineReduction lw att dist else 1

/-- The line-band mask of `fft_filter_channel_lines` (lines 52-97): ones,
multiplied row-wise and column-wise by the band factors, with the protected
disc forced back to `1.0` as the final step (`mask[center_mask] = 1.0`,
line 97). -/
def buildLineMask {K : Type} [LinearOrderedField K] (h w lw pc : ℕ) (att : K) :
    Fin h → Fin w → K :=
  fun y x => if inDisc pc y x then 1 else axisFactor h lw att y * axisFactor w lw att x

/-- Concrete 5×5 magnitude grid: a single strong value at bin `(2, 4)`,
outside the protected disc of radius 1 around the centre `(2, 2)`. -/
def mag5 : Fin 5 → Fin 5 → ℚ := fun y x => if y.val = 2 ∧ x.val = 4 then 100 else 0

/-- Concrete 3×3 magnitude grid with the distinct values `1..9` row-major. -/
def mag3 : Fin 3 → Fin 3 → ℚ := fun y x => (y.val * 3 + x.val + 1 : ℚ)

/-- `mag3` with the centre bin (the protected disc for `protect_center = 0`)
replaced by a different value. -/
def mag3' : Fin 3 → Fin 3 → ℚ := fun y x => if y.val = 1 ∧ x.val = 1 then 999 else mag3 y x

/-- Tile mirroring of `create_tiled_texture.py` (lines 69-72): `np.flipud`
reverses the row index, `np.fliplr` reverses the column index. -/
def flipTile {α : Type} {h w c : ℕ} (mv mh : Bool) (image : Fin h → Fin w → Fin c → α) :
    Fin h → Fin w → Fin c → α :=
  fun i j ch => image (if mv then i.rev else i) (if mh then j.rev else j) ch

/-- One block assignment
`result[y_start:y_end, x_start:x_end, :] = tile` of `create_tiled_texture.py`
(line 74), with `y_start = ty*h` and `x_start = tx*w`. -/
def writeTile {α : Type} {h w c ty0 tx0 : ℕ} (ty tx : ℕ) (tile : Fin h → Fin w → Fin c → α)
    (result : Fin (h * ty0) → Fin (w * tx0) → Fin c → α) :
    Fin (h * ty0) → Fin (w * tx0) → Fin c → α :=
  fun Y X ch =>
    if hb : ty * h ≤ Y.val ∧ Y.val < ty * h + h ∧ tx * w ≤ X.val ∧ X.val < tx * w + w then
      tile ⟨Y.val - ty * h, by omega⟩ ⟨X.val - tx * w, by omega⟩ ch
    else result Y X ch

/-- `create_tiled_texture(image, tiles_x, tiles_y, mirror)` (lines 26-79):
allocate a zero grid of shape `(h*tiles_y, w*tiles_x, c)` and write each tile
block, mirroring alternate tiles in a checkerboard pattern when `mirror` is
set (`mirror_h = tx % 2 == 1`, `mirror_v = ty % 2 == 1`).  The source also
accepts 2-D input by inserting and finally stripping a singleton channel
axis, which is the `c = 1` instance of this embedding. -/
def create_tiled_texture {α : Type} [Zero α] {h w c : ℕ} (image : Fin h → Fin w → Fin c → α)
    (tiles_x tiles_y : ℕ) (mirror : Bool) :
    Fin (h * tiles_y) → Fin (w * tiles_x) → Fin c → α :=
  (List.range tiles_y).foldl
    (fun res ty =>
      (List.range tiles_x).foldl
        (fun res2 tx =>
          writeTile ty tx
            (flipTile (mirror && decide (ty % 2 = 1)) (mirror && decide (tx % 2 = 1)) image)
            res2)
        res)
    (fun _ _ _ => 0)

/-- One complex unit-circle sample `exp(2πi·t/N)`, the building block of the
discrete Fourier transform. -/
noncomputable def expUnit (N : ℕ) (t : ℤ) : ℂ :=
  Complex.exp (2 * (Real.pi : ℂ) * Complex.I * (t : ℂ) / (N : ℂ))

/-- `np.fft.fft2` under ideal complex arithmetic (line 49 of
`remove_texture_pattern.py`): the 2-D discrete Fourier transform
`X[k,l] = Σ_{m,n} x[m,n]·exp(-2πi(km/h + ln/w))`. -/
noncomputable def fft2 {h w : ℕ} (x : Fin h → Fin w → ℂ) : Fin h → Fin w → ℂ :=
  fun k l => ∑ m : Fin h, ∑ n : Fin w,
    x m n * Complex.exp (-(2 * (Real.pi : ℂ) * Complex.I) *
      (((k.val * m.val : ℕ) : ℂ) / (h : ℂ) + ((l.val * n.val : ℕ) : ℂ) / (w : ℂ)))

/-- `np.fft.ifft2` under ideal complex arithmetic (line 104):
`x[m,n] = 1/(h·w) · Σ_{k,l} X[k,l]·exp(2πi(km/h + ln/w))`. -/
noncomputable def ifft2 {h w : ℕ} (X : Fin h → Fin w → ℂ) : Fin h → Fin w → ℂ :=
  fun m n => 1 / ((h : ℂ) * (w : ℂ)) * ∑ k : Fin h, ∑ l : Fin w,
    X k l * Complex.exp ((2 * (Real.pi : ℂ) * Complex.I) *
      (((k.val * m.val : ℕ) : ℂ) / (h : ℂ) + ((l.val * n.val : ℕ) : ℂ) / (w : ℂ)))

/-- `np.fft.fftshift` on both axes (line 50): the zero-frequency term moves
to grid position `(h//2, w//2)`; `fftshift(x)[i] = x[(i + (n - n//2)) % n]`
per axis. -/
def fftshift2 {α : Type} {h w : ℕ} (X : Fin h → Fin w → α) : Fin h → Fin w → α :=
  fun k l => X ⟨(k.val + (h - h / 2)) % h, Nat.mod_lt _ k.pos⟩
    ⟨(l.val + (w - w / 2)) % w, Nat.mod_lt _ l.pos⟩

/-- `np.fft.ifftshift` on both axes (line 103), the inverse of `fftshift2`:
`ifftshift(x)[i] = x[(i + n//2) % n]` per axis. -/
def ifftshift2 {α : Type} {h w : ℕ} (X : Fin h → Fin w → α) : Fin h → Fin w → α :=
  fun k l => X ⟨(k.val + h / 2) % h, Nat.mod_lt _ k.pos⟩
    ⟨(l.val + w / 2) % w, Nat.mod_lt _ l.pos⟩

/-- The forward spectrum transform of the pipeline: 2-D DFT followed by the
centre shift (lines 48-50 and 127-128). -/
noncomputable def forwardTransform {h w : ℕ} (x : Fin h → Fin w → ℝ) : Fin h → Fin w → ℂ :=
  fftshift2 (fft2 fun m n => ((x m n : ℝ) : ℂ))

/-- The inverse spectrum transform of the pipeline: undo the centre shift,
inverse DFT, and keep only the real part (lines 102-105 and 171-173). -/
noncomputable def inverseTransform {h w : ℕ} (s : Fin h → Fin w → ℂ) : Fin h → Fin w → ℝ :=
  fun m n => (ifft2 (ifftshift2 s) m n).re

/-- `fft_filter_channel_lines(channel, line_width, protect_center,
attenuation)` (lines 31-107): forward transform, line-band mask, mask
application, inverse transform, real part. -/
noncomputable def fft_filter_channel_lines {h w : ℕ} (channel : Fin h → Fin w → ℝ)
    (line_width protect_center : ℕ) (attenuation : ℝ) : Fin h → Fin w → ℝ :=
  let f_shift := fftshift2 (fft2 fun m n => ((channel m n : ℝ) : ℂ))
  let mask := buildLineMask (K := ℝ) h w line_width protect_center attenuation
  fun m n => (ifft2 (ifftshift2 fun k l => f_shift k l * ((mask k l : ℝ) : ℂ)) m n).re

/-- `fft_filter_channel(channel, threshold_percentile, notch_radius,
protect_center)` (lines 110-175): forward transform, peak-notch mask built
from the magnitude spectrum, mask application, inverse transform, real
part. -/
noncomputable def fft_filter_channel {h w : ℕ} (channel : Fin h → Fin w → ℝ)
    (threshold_percentile : ℝ) (notch_radius protect_center : ℕ) : Fin h → Fin w → ℝ :=
  let f_shift := fftshift2 (fft2 fun m n => ((channel m n : ℝ) : ℂ))
  let magnitude : Fin h → Fin w → ℝ := fun k l => Complex.abs (f_shift k l)
  let mask := buildPeakMask magnitude threshold_percentile notch_radius protect_center
  fun m n => (ifft2 (ifftshift2 fun k l => f_shift k l * ((mask k l : ℝ) : ℂ)) m n).re

/-- The grayscale branch of `fft_remove_pattern` (lines 197-205): a 2-D
input is delegated directly to the selected single-channel filter. -/
noncomputable def fft_remove_pattern_gray {h w : ℕ} (image : Fin h → Fin w → ℝ)
    (threshold_percentile : ℝ) (notch_radius protect_center : ℕ) (method : String)
    (line_width : ℕ) (attenuation : ℝ) : Fin h → Fin w → ℝ :=
  if method = "lines" then
    fft_filter_channel_lines image line_width protect_center attenuation
  else
    fft_filter_channel image threshold_percentile notch_radius protect_center

/-- The multi-channel branch of `fft_remove_pattern` (lines 207-228):
allocate `np.zeros_like(image)` and overwrite each channel slice with the
selected single-channel filter of that input channel, in channel order. -/
noncomputable def fft_remove_pattern {h w c : ℕ} (image : Fin h → Fin w → Fin c → ℝ)
    (threshold_percentile : ℝ) (notch_radius protect_center : ℕ) (method : String)
    (line_width : ℕ) (attenuation : ℝ) : Fin h → Fin w → Fin c → ℝ :=
  (List.finRange c).foldl
    (fun result ci => fun y x cj =>
      if cj = ci then
        (if method = "lines" then
          fft_filter_channel_lines (fun a b => image a b ci) line_width protect_center
            attenuation
        else
          fft_filter_channel (fun a b => image a b ci) threshold_percentile notch_radius
            protect_center) y x
      else result y x cj)
    (fun _ _ _ => 0)

/-! ### Mask-layer lemmas -/

/-- Evaluating the peak loop's fold at one bin multiplies the accumulator by
the notch factors of all peaks in the list. -/
theorem foldl_applyNotch {K : Type} [LinearOrderedField K] {h w : ℕ} (r : ℕ) :
    ∀ (l : List (Fin h × Fin w)) (acc : Fin h → Fin w → K) (y : Fin h) (x : Fin w),
      (l.foldl (fun m p => applyNotch r p m) acc) y x
        = acc y x * (l.map fun p => notchFactor r p y x).prod := by
  intro l
  induction l with
  | nil => intro acc y x; simp
  | cons p t ih =>
    intro acc y x
    simp only [List.foldl_cons, List.map_cons, List.prod_cons, ih, applyNotch]
    ring

/-- The peak-notch mask at one bin is the product of the notch factors of
all detected peaks. -/
theorem buildPeakMask_eq_prod {K : Type} [LinearOrderedField K] [FloorRing K] {h w : ℕ}
    (mag : Fin h → Fin w → K) (q : K) (r pc : ℕ) (y : Fin h) (x : Fin w) :
    buildPeakMask mag q r pc y x
      = ((peakCoords mag q pc).map fun p => notchFactor r p y x).prod := by
  unfold buildPeakMask
  rw [foldl_applyNotch]
  simp

/-- Membership in the detected-peak list: magnitude strictly above the
threshold and outside the protected disc. -/
theorem mem_peakCoords {K : Type} [LinearOrderedField K] [FloorRing K] {h w : ℕ}
    (mag : Fin h → Fin w → K) (q : K) (pc : ℕ) (p : Fin h × Fin w) :
    p ∈ peakCoords mag q pc
      ↔ (thresholdOfMag mag q pc < mag p.1 p.2 ∧ inDisc pc p.1 p.2 = false) := by
  unfold peakCoords isPeak
  simp only [List.mem_flatMap, List.mem_map, List.mem_filter, List.mem_finRange, true_and,
    Bool.and_eq_true, decide_eq_true_eq, Bool.not_eq_true']
  constructor
  · rintro ⟨y, x, ⟨hth, hd⟩, rfl⟩
    exact ⟨hth, hd⟩
  · rintro ⟨hth, hd⟩
    exact ⟨p.1, p.2, ⟨hth, hd⟩, rfl⟩

/-- Every notch factor lies in `[0, 1]`. -/
theorem notchFactor_mem_Icc {K : Type} [LinearOrderedField K] {h w : ℕ}
    (r : ℕ) (p : Fin h × Fin w) (y : Fin h) (x : Fin w) :
    0 ≤ notchFactor (K := K) r p y x ∧ notchFactor (K := K) r p y x ≤ 1 := by
  unfold notchFactor
  set d2 : ℤ := ((y.val : ℤ) - (p.1.val : ℤ)) ^ 2 + ((x.val : ℤ) - (p.2.val : ℤ)) ^ 2 with hd2
  by_cases h1 : d2 ≤ (r : ℤ) ^ 2
  · rw [if_pos h1]
    by_cases h2 : 0 < d2
    · rw [if_pos h2]
      have hr2 : (0 : ℤ) < (r : ℤ) ^ 2 := lt_of_lt_of_le h2 h1
      have hrK : (0 : K) < (r : K) ^ 2 := by exact_mod_cast hr2
      constructor
      · exact div_nonneg (by exact_mod_cast h2.le) hrK.le
      · rw [div_le_one hrK]; exact_mod_cast h1
    · rw [if_neg h2]; exact ⟨le_refl 0, zero_le_one⟩
  · rw [if_neg h1]; exact ⟨zero_le_one, le_refl 1⟩

/-- A list of values in `[0, 1]` has product in `[0, 1]`. -/
theorem list_prod_mem_Icc {K : Type} [LinearOrderedField K] :
    ∀ l : List K, (∀ a ∈ l, 0 ≤ a ∧ a ≤ 1) → 0 ≤ l.prod ∧ l.prod ≤ 1 := by
  intro l
  induction l with
  | nil => intro _; simp
  | cons a t ih =>
    intro hmem
    obtain ⟨ha0, ha1⟩ := hmem a (by simp)
    obtain ⟨ht0, ht1⟩ := ih fun b hb => hmem b (by simp [hb])
    simp only [List.prod_cons]
    exact ⟨mul_nonneg ha0 ht0, mul_le_one₀ ha1 ht0 ht1⟩

/-- With `notch_radius = 0`, the notch factor of peak `p` suppresses exactly
the bin of `p` itself and leaves every other bin untouched. -/
theorem notchFactor_zero {K : Type} [LinearOrderedField K] {h w : ℕ}
    (p : Fin h × Fin w) (y : Fin h) (x : Fin w) :
    notchFactor (K := K) 0 p y x = if p = (y, x) then 0 else 1 := by
  simp only [notchFactor]
  by_cases hp : p = (y, x)
  · subst hp
    simp
  · have hne : p.1 ≠ y ∨ p.2 ≠ x := by
      by_contra hcon
      push_neg at hcon
      exact hp (Prod.ext hcon.1 hcon.2)
    have hsq : ∀ a : ℤ, a ≠ 0 → 0 < a ^ 2 := fun a ha =>
      (sq_nonneg a).lt_of_ne (Ne.symm (pow_ne_zero 2 ha))
    have hpos : 0 < ((y.val : ℤ) - (p.1.val : ℤ)) ^ 2 + ((x.val : ℤ) - (p.2.val : ℤ)) ^ 2 := by
      rcases hne with hne | hne
      · have hz : ((y.val : ℤ) - (p.1.val : ℤ)) ≠ 0 := by
          intro hz
          exact hne (Fin.ext (by omega)).symm
        have h1 := hsq _ hz
        have h2 := sq_nonneg ((x.val : ℤ) - (p.2.val : ℤ))
        linarith
      · have hz : ((x.val : ℤ) - (p.2.val : ℤ)) ≠ 0 := by
          intro hz
          exact hne (Fin.ext (by omega)).symm
        have h1 := hsq _ hz
        have h2 := sq_nonneg ((y.val : ℤ) - (p.1.val : ℤ))
        linarith
    have hnle : ¬((((y.val : ℤ) - (p.1.val : ℤ)) ^ 2 + ((x.val : ℤ) - (p.2.val : ℤ)) ^ 2)
        ≤ ((0 : ℕ) : ℤ) ^ 2) := by
      push_cast
      linarith
    rw [if_neg hnle, if_neg hp]

/-- Mapping an "all ones except at `b`" factor over a list multiplies to `0`
exactly when `b` is in the list. -/
theorem map_prod_indicator {K : Type} [LinearOrderedField K] {β : Type} [DecidableEq β] (b : β) :
    ∀ l : List β, ((l.map fun p => if p = b then (0 : K) else 1).prod)
      = if b ∈ l then 0 else 1 := by
  intro l
  induction l with
  | nil => simp
  | cons a t ih =>
    simp only [List.map_cons, List.prod_cons, ih, List.mem_cons]
    by_cases hab : a = b
    · subst hab
      simp
    · rw [if_neg hab]
      by_cases hbt : b ∈ t
      · simp [hbt]
      · rw [if_neg hbt, if_neg (by rintro (hba | hbt2); exact hab hba.symm; exact hbt hbt2)]
        simp

/-- For a positive `line_width` and attenuation in `[0, 1]`, the
per-distance reduction factor lies in `[0, 1]`. -/
theorem lineReduction_mem_Icc {K : Type} [LinearOrderedField K] (lw : ℕ) (att : K) (d : ℕ)
    (hlw : 0 < lw) (h0 : 0 ≤ att) (h1 : att ≤ 1) :
    0 ≤ lineReduction lw att d ∧ lineReduction lw att d ≤ 1 := by
  unfold lineReduction
  by_cases hd : d ≤ lw
  · rw [if_pos hd]
    exact ⟨h0, h1⟩
  · rw [if_neg hd]
    by_cases hd2 : d < lw * 2
    · rw [if_pos hd2]
      have hnum : (0 : ℤ) ≤ (lw * 2 - d : ℤ) := by omega
      have hnumK : (0 : K) ≤ ((lw * 2 - d : ℤ) : K) := by exact_mod_cast hnum
      have hden : (0 : K) < (lw : K) := by exact_mod_cast hlw
      have hfrac0 : (0 : K) ≤ ((lw * 2 - d : ℤ) : K) / (lw : K) := div_nonneg hnumK hden.le
      have hfrac1 : ((lw * 2 - d : ℤ) : K) / (lw : K) ≤ 1 := by
        rw [div_le_one hden]
        have : (lw * 2 - d : ℤ) ≤ (lw : ℤ) := by omega
        exact_mod_cast this
      refine ⟨mul_nonneg h0 hfrac0, ?_⟩
      calc att * (((lw * 2 - d : ℤ) : K) / (lw : K)) ≤ 1 * 1 :=
            mul_le_mul h1 hfrac1 hfrac0 zero_le_one
        _ = 1 := one_mul 1
    · rw [if_neg hd2]
      simp

/-- The accumulated per-row (or per-column) band factor lies in `[0, 1]`
whenever the attenuation does. -/
theorem axisFactor_mem_Icc {K : Type} [LinearOrderedField K] (n lw : ℕ) (att : K) (idx : Fin n)
    (h0 : 0 ≤ att) (h1 : att ≤ 1) :
    0 ≤ axisFactor n lw att idx ∧ axisFactor n lw att idx ≤ 1 := by
  simp only [axisFactor]
  by_cases hc : 0 < lw ∧ ((idx.val : ℤ) - ((n / 2 : ℕ) : ℤ)).natAbs ≤ lw * 2
  · rw [if_pos hc]
    obtain ⟨hr0, hr1⟩ := lineReduction_mem_Icc lw att _ hc.1 h0 h1
    constructor <;> linarith
  · rw [if_neg hc]
    exact ⟨zero_le_one, le_refl 1⟩

/-! ### Claim theorems: mask layer -/

/-- Claim C1 counterexample: in the peak-notch policy there is no final
override of the protected disc.  On `mag5` (one strong peak at `(2,4)`,
`threshold_percentile = 99`, `notch_radius = 3`, `protect_center = 1`) the
bin `(2,2)` — the exact DC bin, inside the disc — gets mask `4/9 ≠ 1`,
because the notch around the peak at distance 2 reaches into the disc. -/
theorem c1_counterexample :
    inDisc (h := 5) (w := 5) 1 2 2 = true ∧ buildPeakMask mag5 99 3 1 2 2 ≠ 1 := by
  with_unfolding_all decide

/-- Claim C1, amended: the line-band policy does force the protected disc
back to 1.0 as a final override, so its mask is exactly 1 inside the disc;
the peak-notch policy only excludes in-disc bins from being peak centres
(their mask can still be attenuated by notches around outside peaks). -/
theorem c1_amended {K : Type} [LinearOrderedField K] [FloorRing K] {h w : ℕ}
    (lw pc : ℕ) (att q : K) (mag : Fin h → Fin w → K) (y : Fin h) (x : Fin w)
    (hy : inDisc pc y x = true) :
    buildLineMask h w lw pc att y x = 1 ∧
      ∀ p ∈ peakCoords mag q pc, inDisc pc p.1 p.2 = false := by
  constructor
  · simp only [buildLineMask]
    rw [if_pos hy]
  · intro p hp
    exact ((mem_peakCoords mag q pc p).1 hp).2

/-- Witness for `c1_amended` at a concrete configuration. -/
theorem c1_amended_witness :
    inDisc (h := 5) (w := 5) 1 2 2 = true ∧
      (buildLineMask 5 5 2 1 (99 / 100 : ℚ) 2 2 = 1 ∧
        ∀ p ∈ peakCoords mag5 99 1, inDisc 1 p.1 p.2 = false) :=
  ⟨by with_unfolding_all decide,
    c1_amended 2 1 (99 / 100) 99 mag5 2 2 (by with_unfolding_all decide)⟩

/-- Claim C2 counterexample: the code's threshold (percentile over the grid
with the disc zeroed, in-disc bins still counted) differs from the
percentile over only the outside-disc values.  On `mag3` with
`protect_center = 0` and `q = 50` the code yields `4`, exclusion yields
`5`. -/
theorem c2_counterexample :
    thresholdOfMag mag3 50 0 = 4 ∧ thresholdExcludingDisc mag3 50 0 = 5 ∧
      thresholdOfMag mag3 50 0 ≠ thresholdExcludingDisc mag3 50 0 := by
  with_unfolding_all decide

/-- Claim C2, amended: the in-disc bins do participate in the percentile
statistics — as zeros.  Consequently the threshold is insensitive to the
magnitudes inside the disc (only their count matters): any two magnitude
grids that agree outside the disc give the same threshold. -/
theorem c2_amended {K : Type} [LinearOrderedField K] [FloorRing K] {h w : ℕ}
    (mag mag' : Fin h → Fin w → K) (q : K) (pc : ℕ)
    (hout : ∀ (y : Fin h) (x : Fin w), inDisc pc y x = false → mag y x = mag' y x) :
    thresholdOfMag mag q pc = thresholdOfMag mag' q pc := by
  unfold thresholdOfMag
  congr 1
  unfold magnitudeForThreshold
  congr 1
  funext y
  congr 1
  funext x
  cases hb : inDisc pc y x with
  | true => simp
  | false => simp [hout y x hb]

/-- Witness for `c2_amended`: `mag3` and `mag3'` differ only inside the
`protect_center = 0` disc and produce the same threshold. -/
theorem c2_amended_witness :
    (∀ (y : Fin 3) (x : Fin 3), inDisc 0 y x = false → mag3 y x = mag3' y x) ∧
      thresholdOfMag mag3 50 0 = thresholdOfMag mag3' 50 0 :=
  ⟨by with_unfolding_all decide,
    c2_amended mag3 mag3' 50 0 (by with_unfolding_all decide)⟩

/-- Claim C3 counterexample: with `notch_radius = 0` and a detected peak
(`mag5`, threshold percentile 99, protect radius 1) the filter completes
without ever evaluating the division with zero denominator, and the peak
bin's mask is 0. -/
theorem c3_counterexample :
    peakCoords mag5 99 1 ≠ [] ∧ divisionByZeroOccurs mag5 99 0 1 = false ∧
      buildPeakMask mag5 99 0 1 2 4 = 0 := by
  with_unfolding_all decide

/-- Claim C3, amended: `notch_radius = 0` never triggers a division by zero
— the only visited neighbour of each peak is the peak bin itself, at
distance 0, where the `dist > 0` guard takes the divisionless `else 0`
branch.  The call completes normally with the mask 0 exactly at the peak
bins and 1 everywhere else. -/
theorem c3_amended {K : Type} [LinearOrderedField K] [FloorRing K] {h w : ℕ}
    (mag : Fin h → Fin w → K) (q : K) (pc : ℕ) :
    divisionByZeroOccurs mag q 0 pc = false ∧
      ∀ (y : Fin h) (x : Fin w), buildPeakMask mag q 0 pc y x
        = if (y, x) ∈ peakCoords mag q pc then 0 else 1 := by
  constructor
  · simp only [divisionByZeroOccurs]
    rw [Bool.eq_false_iff]
    intro hcon
    simp only [List.any_eq_true, decide_eq_true_eq] at hcon
    obtain ⟨p, -, y, -, x, -, hle, hlt, -⟩ := hcon
    push_cast at hle
    linarith
  · intro y x
    rw [buildPeakMask_eq_prod]
    simp only [notchFactor_zero]
    rw [map_prod_indicator (y, x) (peakCoords mag q pc)]
    by_cases hm : (y, x) ∈ peakCoords mag q pc
    · rw [if_pos hm, if_pos hm]
    · rw [if_neg hm, if_neg hm]

/-- Claim C4: for attenuation in `[0, 1]` (the other parameters being
naturals, hence automatically in their valid ranges), every value of the
line-band mask and of the peak-notch mask lies in `[0, 1]`. -/
theorem c4_mask_bounded {K : Type} [LinearOrderedField K] [FloorRing K] {h w : ℕ}
    (mag : Fin h → Fin w → K) (q att : K) (r pc lw : ℕ)
    (h0 : 0 ≤ att) (h1 : att ≤ 1) :
    ∀ (y : Fin h) (x : Fin w),
      (0 ≤ buildLineMask h w lw pc att y x ∧ buildLineMask h w lw pc att y x ≤ 1) ∧
      (0 ≤ buildPeakMask mag q r pc y x ∧ buildPeakMask mag q r pc y x ≤ 1) := by
  intro y x
  constructor
  · simp only [buildLineMask]
    by_cases hd : inDisc pc y x = true
    · rw [if_pos hd]
      exact ⟨zero_le_one, le_refl 1⟩
    · rw [if_neg hd]
      obtain ⟨hy0, hy1⟩ := axisFactor_mem_Icc h lw att y h0 h1
      obtain ⟨hx0, hx1⟩ := axisFactor_mem_Icc w lw att x h0 h1
      exact ⟨mul_nonneg hy0 hx0, mul_le_one₀ hy1 hx0 hx1⟩
  · rw [buildPeakMask_eq_prod]
    apply list_prod_mem_Icc
    intro a ha
    obtain ⟨p, hp, rfl⟩ := List.mem_map.1 ha
    exact notchFactor_mem_Icc r p y x

/-- Witness for `c4_mask_bounded` at a concrete configuration. -/
theorem c4_mask_bounded_witness :
    (0 : ℚ) ≤ 1 / 2 ∧ (1 / 2 : ℚ) ≤ 1 ∧
      ∀ (y : Fin 5) (x : Fin 5),
        (0 ≤ buildLineMask 5 5 2 1 (1 / 2 : ℚ) y x ∧ buildLineMask 5 5 2 1 (1 / 2 : ℚ) y x ≤ 1) ∧
        (0 ≤ buildPeakMask mag5 99 3 1 y x ∧ buildPeakMask mag5 99 3 1 y x ≤ 1) :=
  ⟨by norm_num, by norm_num,
    c4_mask_bounded mag5 99 (1 / 2) 3 1 2 (by norm_num) (by norm_num)⟩

/-- Claim C6: with `notch_radius = r`, the peak-notch mask at each bin is
the product over all detected peaks of their notch factors — `(d²/r²)` for a
peak at distance `d ≤ r` (`0` at `d = 0`), `1` for a farther peak.  Bins
farther than `r` from every peak keep mask exactly `1`, and every detected
peak bin has mask `0`. -/
theorem c6_notch_product {K : Type} [LinearOrderedField K] [FloorRing K] {h w : ℕ}
    (mag : Fin h → Fin w → K) (q : K) (r pc : ℕ) (_hr : 0 < r) :
    (∀ (y : Fin h) (x : Fin w), buildPeakMask mag q r pc y x
        = ((peakCoords mag q pc).map fun p => notchFactor r p y x).prod) ∧
    (∀ (y : Fin h) (x : Fin w),
        (∀ p ∈ peakCoords mag q pc,
          (r : ℤ) ^ 2 < ((y.val : ℤ) - (p.1.val : ℤ)) ^ 2 + ((x.val : ℤ) - (p.2.val : ℤ)) ^ 2) →
        buildPeakMask mag q r pc y x = 1) ∧
    (∀ p ∈ peakCoords mag q pc, buildPeakMask mag q r pc p.1 p.2 = 0) := by
  refine ⟨fun y x => buildPeakMask_eq_prod mag q r pc y x, fun y x hfar => ?_, fun p hp => ?_⟩
  · rw [buildPeakMask_eq_prod]
    apply List.prod_eq_one
    intro a ha
    obtain ⟨p, hp, rfl⟩ := List.mem_map.1 ha
    simp only [notchFactor]
    rw [if_neg (not_le.mpr (hfar p hp))]
  · rw [buildPeakMask_eq_prod]
    apply List.prod_eq_zero
    apply List.mem_map.2
    refine ⟨p, hp, ?_⟩
    simp only [notchFactor]
    have hd2 : ((p.1.val : ℤ) - (p.1.val : ℤ)) ^ 2 + ((p.2.val : ℤ) - (p.2.val : ℤ)) ^ 2 = 0 := by
      ring
    rw [hd2, if_pos (sq_nonneg (r : ℤ)), if_neg (lt_irrefl 0)]

/-- Witness for `c6_notch_product` on `mag5` with `notch_radius = 3`. -/
theorem c6_notch_product_witness :
    0 < 3 ∧
      ((∀ (y : Fin 5) (x : Fin 5), buildPeakMask mag5 99 3 1 y x
          = ((peakCoords mag5 99 1).map fun p => notchFactor 3 p y x).prod) ∧
       (∀ (y : Fin 5) (x : Fin 5),
          (∀ p ∈ peakCoords mag5 99 1,
            ((3 : ℕ) : ℤ) ^ 2 < ((y.val : ℤ) - (p.1.val : ℤ)) ^ 2
              + ((x.val : ℤ) - (p.2.val : ℤ)) ^ 2) →
          buildPeakMask mag5 99 3 1 y x = 1) ∧
       (∀ p ∈ peakCoords mag5 99 1, buildPeakMask mag5 99 3 1 p.1 p.2 = 0)) :=
  ⟨by decide, c6_notch_product mag5 99 3 1 (by decide)⟩

/-- Claim C9: the per-offset reduction of the line policy equals
`attenuation` for `dist ≤ line_width`, equals
`attenuation * (2*line_width - dist)/line_width` for
`line_width < dist ≤ 2*line_width`, strictly decreases with the distance on
that falloff range, and never increases with distance anywhere. -/
theorem c9_line_reduction {K : Type} [LinearOrderedField K] (lw : ℕ) (att : K)
    (hlw : 0 < lw) (h0 : 0 < att) (h1 : att ≤ 1) :
    (∀ d : ℕ, d ≤ lw → lineReduction lw att d = att) ∧
    (∀ d : ℕ, lw < d → d ≤ lw * 2 →
        lineReduction lw att d = att * (((lw * 2 - d : ℤ) : K) / (lw : K))) ∧
    (∀ d1 d2 : ℕ, lw ≤ d1 → d1 < d2 → d2 ≤ lw * 2 →
        lineReduction lw att d2 < lineReduction lw att d1) ∧
    (∀ d1 d2 : ℕ, d1 ≤ d2 → lineReduction lw att d2 ≤ lineReduction lw att d1) := by
  have hden : (0 : K) < (lw : K) := by exact_mod_cast hlw
  have ha : ∀ d : ℕ, d ≤ lw → lineReduction lw att d = att := by
    intro d hd
    unfold lineReduction
    rw [if_pos hd]
  have hb : ∀ d : ℕ, lw < d → d ≤ lw * 2 →
      lineReduction lw att d = att * (((lw * 2 - d : ℤ) : K) / (lw : K)) := by
    intro d hd hd2
    unfold lineReduction
    rw [if_neg (not_le.mpr hd)]
    rcases lt_or_eq_of_le hd2 with hlt | heq
    · rw [if_pos hlt]
    · subst heq
      rw [if_neg (lt_irrefl _)]
      simp
  have hzero : ∀ d : ℕ, lw * 2 ≤ d → lw < d → lineReduction lw att d = 0 := by
    intro d hd2 hd
    unfold lineReduction
    rw [if_neg (not_le.mpr hd), if_neg (not_lt.mpr hd2)]
    simp
  have hfrac0 : ∀ d : ℕ, d ≤ lw * 2 → (0 : K) ≤ ((lw * 2 - d : ℤ) : K) / (lw : K) := by
    intro d hd2
    apply div_nonneg _ hden.le
    exact_mod_cast (by omega : (0 : ℤ) ≤ (lw : ℤ) * 2 - (d : ℤ))
  have hc : ∀ d1 d2 : ℕ, lw ≤ d1 → d1 < d2 → d2 ≤ lw * 2 →
      lineReduction lw att d2 < lineReduction lw att d1 := by
    intro d1 d2 hd1 hdlt hd2
    have hlw2 : lw < d2 := lt_of_le_of_lt hd1 hdlt
    rw [hb d2 hlw2 hd2]
    rcases eq_or_lt_of_le hd1 with heq | hlt
    · rw [ha d1 heq.symm.le]
      have hfrac_lt : ((lw * 2 - d2 : ℤ) : K) / (lw : K) < 1 := by
        rw [div_lt_one hden]
        exact_mod_cast (by omega : ((lw : ℤ) * 2 - (d2 : ℤ)) < (lw : ℤ))
      calc att * (((lw * 2 - d2 : ℤ) : K) / (lw : K)) < att * 1 :=
            mul_lt_mul_of_pos_left hfrac_lt h0
        _ = att := mul_one att
    · rw [hb d1 hlt (by omega)]
      apply mul_lt_mul_of_pos_left _ h0
      rw [div_lt_div_iff_of_pos_right hden]
      exact_mod_cast (by omega : ((lw : ℤ) * 2 - (d2 : ℤ)) < ((lw : ℤ) * 2 - (d1 : ℤ)))
  have hd_anti : ∀ d1 d2 : ℕ, d1 ≤ d2 → lineReduction lw att d2 ≤ lineReduction lw att d1 := by
    intro d1 d2 hle
    rcases le_or_lt d2 lw with h2 | h2
    · rw [ha d2 h2, ha d1 (hle.trans h2)]
    · have hr1 := (lineReduction_mem_Icc lw att d1 hlw h0.le h1).1
      rcases le_or_lt d1 lw with h1' | h1'
      · rw [ha d1 h1']
        rcases le_or_lt d2 (lw * 2) with h2' | h2'
        · rw [hb d2 h2 h2']
          have hfrac1 : ((lw * 2 - d2 : ℤ) : K) / (lw : K) ≤ 1 := by
            rw [div_le_one hden]
            exact_mod_cast (by omega : ((lw : ℤ) * 2 - (d2 : ℤ)) ≤ (lw : ℤ))
          calc att * (((lw * 2 - d2 : ℤ) : K) / (lw : K)) ≤ att * 1 :=
                mul_le_mul_of_nonneg_left hfrac1 h0.le
            _ = att := mul_one att
        · rw [hzero d2 h2'.le h2]
          exact h0.le
      · rcases le_or_lt d2 (lw * 2) with h2' | h2'
        · rw [hb d2 h2 h2', hb d1 h1' (by omega)]
          apply mul_le_mul_of_nonneg_left _ h0.le
          rw [div_le_div_iff_of_pos_right hden]
          exact_mod_cast (by omega : ((lw : ℤ) * 2 - (d2 : ℤ)) ≤ ((lw : ℤ) * 2 - (d1 : ℤ)))
        · rw [hzero d2 h2'.le h2]
          exact hr1
  exact ⟨ha, hb, hc, hd_anti⟩

/-- Witness for `c9_line_reduction` at `line_width = 2`,
`attenuation = 99/100`. -/
theorem c9_line_reduction_witness :
    0 < 2 ∧ (0 : ℚ) < 99 / 100 ∧ (99 / 100 : ℚ) ≤ 1 ∧
      ((∀ d : ℕ, d ≤ 2 → lineReduction 2 (99 / 100 : ℚ) d = 99 / 100) ∧
       (∀ d : ℕ, 2 < d → d ≤ 2 * 2 →
          lineReduction 2 (99 / 100 : ℚ) d
            = 99 / 100 * ((((2 : ℕ) * 2 - d : ℤ) : ℚ) / ((2 : ℕ) : ℚ))) ∧
       (∀ d1 d2 : ℕ, 2 ≤ d1 → d1 < d2 → d2 ≤ 2 * 2 →
          lineReduction 2 (99 / 100 : ℚ) d2 < lineReduction 2 (99 / 100 : ℚ) d1) ∧
       (∀ d1 d2 : ℕ, d1 ≤ d2 →
          lineReduction 2 (99 / 100 : ℚ) d2 ≤ lineReduction 2 (99 / 100 : ℚ) d1)) :=
  ⟨by decide, by norm_num, by norm_num,
    c9_line_reduction 2 (99 / 100) (by decide) (by norm_num) (by norm_num)⟩

/-! ### FFT-layer lemmas -/

/-- Geometric sum of the unit-circle samples: over a full period the sum is
`N` when `N ∣ c` and `0` otherwise. -/
theorem sum_expUnit (N : ℕ) (c : ℤ) :
    ∑ j : Fin N, expUnit N (c * j.val) = if (N : ℤ) ∣ c then (N : ℂ) else 0 := by
  rcases Nat.eq_zero_or_pos N with hN | hN
  · subst hN
    simp
  · have hterm : ∀ j : Fin N, expUnit N (c * j.val) = expUnit N c ^ j.val := by
      intro j
      unfold expUnit
      rw [← Complex.exp_nat_mul]
      congr 1
      push_cast
      ring
    simp only [hterm]
    rw [Fin.sum_univ_eq_sum_range (fun j => expUnit N c ^ j) N]
    have hNC : ((N : ℕ) : ℂ) ≠ 0 := Nat.cast_ne_zero.mpr hN.ne'
    by_cases hdvd : (N : ℤ) ∣ c
    · obtain ⟨t, rfl⟩ := hdvd
      have hone : expUnit N ((N : ℤ) * t) = 1 := by
        unfold expUnit
        have harg : 2 * (Real.pi : ℂ) * Complex.I * (((N : ℤ) * t : ℤ) : ℂ) / (N : ℂ)
            = (t : ℂ) * (2 * (Real.pi : ℂ) * Complex.I) := by
          push_cast
          field_simp
          ring
        rw [harg, Complex.exp_int_mul_two_pi_mul_I]
      rw [if_pos ⟨t, rfl⟩]
      simp [hone]
    · rw [if_neg hdvd]
      have hz1 : expUnit N c ≠ 1 := by
        intro hcon
        unfold expUnit at hcon
        rw [Complex.exp_eq_one_iff] at hcon
        obtain ⟨t, ht⟩ := hcon
        have hpi : (Real.pi : ℂ) ≠ 0 := Complex.ofReal_ne_zero.mpr Real.pi_ne_zero
        have h2pi : (2 * (Real.pi : ℂ) * Complex.I) ≠ 0 :=
          mul_ne_zero (mul_ne_zero two_ne_zero hpi) Complex.I_ne_zero
        rw [div_eq_iff hNC] at ht
        have key : (2 * (Real.pi : ℂ) * Complex.I) * (c : ℂ)
            = (2 * (Real.pi : ℂ) * Complex.I) * ((t : ℂ) * (N : ℂ)) := by
          linear_combination ht
        have hc : (c : ℂ) = (t : ℂ) * (N : ℂ) := mul_left_cancel₀ h2pi key
        exact hdvd ⟨t, by exact_mod_cast hc.trans (mul_comm _ _)⟩
      have hzN : expUnit N c ^ N = 1 := by
        unfold expUnit
        rw [← Complex.exp_nat_mul]
        have harg : ((N : ℕ) : ℂ) * (2 * (Real.pi : ℂ) * Complex.I * ((c : ℤ) : ℂ) / (N : ℂ))
            = (c : ℂ) * (2 * (Real.pi : ℂ) * Complex.I) := by
          field_simp
          ring
        rw [harg, Complex.exp_int_mul_two_pi_mul_I]
      rw [geom_sum_eq hz1 N, hzN]
      simp

/-- Orthogonality of the DFT characters: summing
`exp(-2πi·j·b/N)·exp(2πi·a·j/N)` over a full period gives `N` exactly on the
diagonal `a = b`. -/
theorem sum_expUnit_pair {N : ℕ} (a b : Fin N) :
    ∑ j : Fin N, expUnit N (-((j.val : ℤ) * b.val)) * expUnit N ((a.val : ℤ) * j.val)
      = if a = b then (N : ℂ) else 0 := by
  have hcomb : ∀ j : Fin N,
      expUnit N (-((j.val : ℤ) * b.val)) * expUnit N ((a.val : ℤ) * j.val)
        = expUnit N (((a.val : ℤ) - (b.val : ℤ)) * j.val) := by
    intro j
    unfold expUnit
    rw [← Complex.exp_add]
    congr 1
    push_cast
    ring
  simp only [hcomb]
  rw [sum_expUnit N ((a.val : ℤ) - (b.val : ℤ))]
  by_cases hab : a = b
  · subst hab
    rw [if_pos (by simp), if_pos rfl]
  · rw [if_neg ?hnd, if_neg hab]
    case hnd =>
      rintro ⟨t, ht⟩
      have hN : (0 : ℤ) < (N : ℤ) := by exact_mod_cast a.pos
      have hav : ((a.val : ℕ) : ℤ) < (N : ℤ) := by exact_mod_cast a.isLt
      have hbv : ((b.val : ℕ) : ℤ) < (N : ℤ) := by exact_mod_cast b.isLt
      have ha0 : (0 : ℤ) ≤ ((a.val : ℕ) : ℤ) := Int.natCast_nonneg _
      have hb0 : (0 : ℤ) ≤ ((b.val : ℕ) : ℤ) := Int.natCast_nonneg _
      have ht1 : (N : ℤ) * t < (N : ℤ) * 1 := by
        rw [mul_one, ← ht]
        omega
      have ht2 : (N : ℤ) * (-1) < (N : ℤ) * t := by
        rw [← ht]
        omega
      have htlt : t < 1 := lt_of_mul_lt_mul_left ht1 hN.le
      have htgt : -1 < t := lt_of_mul_lt_mul_left ht2 hN.le
      have ht0 : t = 0 := by omega
      rw [ht0, mul_zero] at ht
      exact hab (Fin.ext (by omega))

/-- Summing a function against the diagonal indicator collapses the sum. -/
theorem sum_diag_collapse {N : ℕ} (f : Fin N → ℂ) (a : Fin N) :
    ∑ b : Fin N, f b * (if a = b then (N : ℂ) else 0) = (N : ℂ) * f a := by
  simp only [mul_ite, mul_zero]
  rw [Finset.sum_ite_eq]
  simp [mul_comm]

/-- The forward 2-D DFT exponential splits into per-axis unit-circle
samples. -/
theorem fftExponent_eq {h w : ℕ} (k : Fin h) (l : Fin w) (m : Fin h) (n : Fin w) :
    Complex.exp (-(2 * (Real.pi : ℂ) * Complex.I) *
        (((k.val * m.val : ℕ) : ℂ) / (h : ℂ) + ((l.val * n.val : ℕ) : ℂ) / (w : ℂ)))
      = expUnit h (-((k.val : ℤ) * m.val)) * expUnit w (-((l.val : ℤ) * n.val)) := by
  unfold expUnit
  rw [← Complex.exp_add]
  congr 1
  push_cast
  ring

/-- The inverse 2-D DFT exponential splits into per-axis unit-circle
samples. -/
theorem ifftExponent_eq {h w : ℕ} (k : Fin h) (l : Fin w) (m : Fin h) (n : Fin w) :
    Complex.exp ((2 * (Real.pi : ℂ) * Complex.I) *
        (((k.val * m.val : ℕ) : ℂ) / (h : ℂ) + ((l.val * n.val : ℕ) : ℂ) / (w : ℂ)))
      = expUnit h ((m.val : ℤ) * k.val) * expUnit w ((n.val : ℤ) * l.val) := by
  unfold expUnit
  rw [← Complex.exp_add]
  congr 1
  push_cast
  ring

/-- Fourier inversion for the ideal 2-D DFT: `ifft2 ∘ fft2 = id`. -/
theorem ifft2_fft2 {h w : ℕ} (x : Fin h → Fin w → ℂ) : ifft2 (fft2 x) = x := by
  funext m0 n0
  have hh : 0 < h := m0.pos
  have hw0 : 0 < w := n0.pos
  have hhC : ((h : ℕ) : ℂ) ≠ 0 := Nat.cast_ne_zero.mpr hh.ne'
  have hwC : ((w : ℕ) : ℂ) ≠ 0 := Nat.cast_ne_zero.mpr hw0.ne'
  have hcol : ∀ k : Fin h,
      (∑ l : Fin w, fft2 x k l * expUnit w ((n0.val : ℤ) * l.val))
        = (w : ℂ) * ∑ m : Fin h, x m n0 * expUnit h (-((k.val : ℤ) * m.val)) := by
    intro k
    calc ∑ l : Fin w, fft2 x k l * expUnit w ((n0.val : ℤ) * l.val)
        = ∑ l : Fin w, ∑ m : Fin h, ∑ n : Fin w,
            x m n * expUnit h (-((k.val : ℤ) * m.val)) *
              (expUnit w (-((l.val : ℤ) * n.val)) * expUnit w ((n0.val : ℤ) * l.val)) := by
          refine Finset.sum_congr rfl fun l _ => ?_
          simp only [fft2, fftExponent_eq, Finset.sum_mul]
          refine Finset.sum_congr rfl fun m _ => ?_
          refine Finset.sum_congr rfl fun n _ => ?_
          ring
      _ = ∑ m : Fin h, ∑ l : Fin w, ∑ n : Fin w,
            x m n * expUnit h (-((k.val : ℤ) * m.val)) *
              (expUnit w (-((l.val : ℤ) * n.val)) * expUnit w ((n0.val : ℤ) * l.val)) :=
          Finset.sum_comm
      _ = ∑ m : Fin h, ∑ n : Fin w,
            x m n * expUnit h (-((k.val : ℤ) * m.val)) *
              (∑ l : Fin w, expUnit w (-((l.val : ℤ) * n.val)) *
                expUnit w ((n0.val : ℤ) * l.val)) := by
          refine Finset.sum_congr rfl fun m _ => ?_
          rw [Finset.sum_comm]
          refine Finset.sum_congr rfl fun n _ => ?_
          rw [Finset.mul_sum]
      _ = ∑ m : Fin h, ∑ n : Fin w,
            x m n * expUnit h (-((k.val : ℤ) * m.val)) * (if n0 = n then (w : ℂ) else 0) := by
          refine Finset.sum_congr rfl fun m _ => ?_
          refine Finset.sum_congr rfl fun n _ => ?_
          rw [sum_expUnit_pair n0 n]
      _ = ∑ m : Fin h, (w : ℂ) * (x m n0 * expUnit h (-((k.val : ℤ) * m.val))) := by
          refine Finset.sum_congr rfl fun m _ => ?_
          exact sum_diag_collapse (fun n => x m n * expUnit h (-((k.val : ℤ) * m.val))) n0
      _ = (w : ℂ) * ∑ m : Fin h, x m n0 * expUnit h (-((k.val : ℤ) * m.val)) := by
          rw [Finset.mul_sum]
  have hmain : (∑ k : Fin h, ∑ l : Fin w, fft2 x k l *
        (expUnit h ((m0.val : ℤ) * k.val) * expUnit w ((n0.val : ℤ) * l.val)))
      = (w : ℂ) * ((h : ℂ) * x m0 n0) := by
    calc ∑ k : Fin h, ∑ l : Fin w, fft2 x k l *
          (expUnit h ((m0.val : ℤ) * k.val) * expUnit w ((n0.val : ℤ) * l.val))
        = ∑ k : Fin h, (∑ l : Fin w, fft2 x k l * expUnit w ((n0.val : ℤ) * l.val)) *
            expUnit h ((m0.val : ℤ) * k.val) := by
          refine Finset.sum_congr rfl fun k _ => ?_
          rw [Finset.sum_mul]
          refine Finset.sum_congr rfl fun l _ => ?_
          ring
      _ = ∑ k : Fin h, ((w : ℂ) * ∑ m : Fin h, x m n0 * expUnit h (-((k.val : ℤ) * m.val))) *
            expUnit h ((m0.val : ℤ) * k.val) := by
          refine Finset.sum_congr rfl fun k _ => ?_
          rw [hcol k]
      _ = (w : ℂ) * ∑ k : Fin h,
            (∑ m : Fin h, x m n0 * expUnit h (-((k.val : ℤ) * m.val))) *
              expUnit h ((m0.val : ℤ) * k.val) := by
          rw [Finset.mul_sum]
          refine Finset.sum_congr rfl fun k _ => ?_
          ring
      _ = (w : ℂ) * ∑ m : Fin h, ∑ k : Fin h,
            x m n0 * expUnit h (-((k.val : ℤ) * m.val)) * expUnit h ((m0.val : ℤ) * k.val) := by
          congr 1
          calc ∑ k : Fin h, (∑ m : Fin h, x m n0 * expUnit h (-((k.val : ℤ) * m.val))) *
                expUnit h ((m0.val : ℤ) * k.val)
              = ∑ k : Fin h, ∑ m : Fin h,
                  x m n0 * expUnit h (-((k.val : ℤ) * m.val)) *
                    expUnit h ((m0.val : ℤ) * k.val) := by
                simp only [Finset.sum_mul]
            _ = ∑ m : Fin h, ∑ k : Fin h,
                  x m n0 * expUnit h (-((k.val : ℤ) * m.val)) *
                    expUnit h ((m0.val : ℤ) * k.val) := Finset.sum_comm
      _ = (w : ℂ) * ∑ m : Fin h, x m n0 * (if m0 = m then (h : ℂ) else 0) := by
          congr 1
          refine Finset.sum_congr rfl fun m _ => ?_
          simp only [mul_assoc]
          rw [← Finset.mul_sum, sum_expUnit_pair m0 m]
      _ = (w : ℂ) * ((h : ℂ) * x m0 n0) := by
          congr 1
          exact sum_diag_collapse (fun m => x m n0) m0
  simp only [ifft2, ifftExponent_eq]
  rw [hmain]
  field_simp
  ring

/-- Shift-index cancellation: un-shifting after shifting restores the
original index on one axis. -/
theorem shift_index_cancel (n : ℕ) (i : Fin n) :
    ((i.val + n / 2) % n + (n - n / 2)) % n = i.val := by
  have h1 : n / 2 ≤ n := Nat.div_le_self n 2
  rw [Nat.mod_add_mod]
  have h2 : i.val + n / 2 + (n - n / 2) = i.val + n := by omega
  rw [h2, Nat.add_mod_right]
  exact Nat.mod_eq_of_lt i.isLt

/-- `ifftshift2` undoes `fftshift2`. -/
theorem ifftshift2_fftshift2 {α : Type} {h w : ℕ} (X : Fin h → Fin w → α) :
    ifftshift2 (fftshift2 X) = X := by
  funext k l
  simp only [ifftshift2, fftshift2, shift_index_cancel, Fin.eta]

/-- Claim C5: with no mask applied, the inverse transform (un-shift, inverse
DFT, real part) exactly undoes the forward transform (DFT, centre shift) on
every real grid, under ideal complex arithmetic. -/
theorem c5_round_trip {h w : ℕ} (x : Fin h → Fin w → ℝ) :
    inverseTransform (forwardTransform x) = x := by
  funext m n
  simp only [inverseTransform, forwardTransform]
  rw [ifftshift2_fftshift2, ifft2_fft2]
  simp

/-- A full-period character sum vanishes except at frequency zero. -/
theorem sum_expUnit_neg_fin {N : ℕ} (k : Fin N) :
    ∑ j : Fin N, expUnit N (-((k.val : ℤ) * j.val)) = if k.val = 0 then (N : ℂ) else 0 := by
  have hterm : ∀ j : Fin N, expUnit N (-((k.val : ℤ) * j.val))
      = expUnit N ((-(k.val : ℤ)) * j.val) := by
    intro j
    congr 1
    ring
  simp only [hterm]
  rw [sum_expUnit N (-(k.val : ℤ))]
  have hdvd : (N : ℤ) ∣ -(k.val : ℤ) ↔ k.val = 0 := by
    rw [Int.dvd_neg, Int.natCast_dvd_natCast]
    constructor
    · intro hd
      exact Nat.eq_zero_of_dvd_of_lt hd k.isLt
    · rintro h0
      rw [h0]
      exact dvd_zero N
  by_cases hk : k.val = 0
  · rw [if_pos (hdvd.mpr hk), if_pos hk]
  · rw [if_neg (fun hc => hk (hdvd.mp hc)), if_neg hk]

/-- The 2-D DFT of a constant grid is concentrated at the zero frequency. -/
theorem fft2_const {h w : ℕ} (C : ℂ) (k : Fin h) (l : Fin w) :
    fft2 (fun _ _ => C) k l
      = if k.val = 0 ∧ l.val = 0 then C * (h : ℂ) * (w : ℂ) else 0 := by
  calc fft2 (fun _ _ => C) k l
      = ∑ m : Fin h, ∑ n : Fin w,
          C * (expUnit h (-((k.val : ℤ) * m.val)) * expUnit w (-((l.val : ℤ) * n.val))) := by
        simp only [fft2, fftExponent_eq]
    _ = C * ((∑ m : Fin h, expUnit h (-((k.val : ℤ) * m.val))) *
          (∑ n : Fin w, expUnit w (-((l.val : ℤ) * n.val)))) := by
        rw [Finset.sum_mul_sum]
        simp only [Finset.mul_sum]
    _ = C * ((if k.val = 0 then (h : ℂ) else 0) * (if l.val = 0 then (w : ℂ) else 0)) := by
        rw [sum_expUnit_neg_fin k, sum_expUnit_neg_fin l]
    _ = if k.val = 0 ∧ l.val = 0 then C * (h : ℂ) * (w : ℂ) else 0 := by
        by_cases hk : k.val = 0 <;> by_cases hl : l.val = 0 <;> simp [hk, hl] <;> ring

/-- Claim C7: filtering the constant 64×64 grid of value 100 with the line
policy (`line_width = 2`, `attenuation = 0.99`, `protect_center = 10`)
returns the grid unchanged under ideal arithmetic: all spectral energy of a
constant image sits at the DC bin, which lies inside the protected disc
where the mask is forced to 1. -/
theorem c7_constant_image_line_filter :
    fft_filter_channel_lines (fun _ _ : Fin 64 => (100 : ℝ)) 2 10 (99 / 100)
      = fun _ _ => (100 : ℝ) := by
  funext m n
  simp only [fft_filter_channel_lines]
  have hmask : (fun k l : Fin 64 =>
        fftshift2 (fft2 fun a b : Fin 64 => (((fun _ _ : Fin 64 => (100 : ℝ)) a b : ℝ) : ℂ)) k l *
          ((buildLineMask (K := ℝ) 64 64 2 10 (99 / 100) k l : ℝ) : ℂ))
      = fftshift2 (fft2 fun a b : Fin 64 => (((fun _ _ : Fin 64 => (100 : ℝ)) a b : ℝ) : ℂ)) := by
    funext k l
    by_cases hc : k.val = 32 ∧ l.val = 32
    · have hdisc : inDisc (h := 64) (w := 64) 10 k l = true := by
        simp only [inDisc]
        rw [hc.1, hc.2]
        decide
      have hmask1 : buildLineMask (K := ℝ) 64 64 2 10 (99 / 100) k l = 1 := by
        simp only [buildLineMask]
        rw [if_pos hdisc]
      rw [hmask1]
      simp
    · have hzero : fftshift2 (fft2 fun a b : Fin 64 =>
          (((fun _ _ : Fin 64 => (100 : ℝ)) a b : ℝ) : ℂ)) k l = 0 := by
        simp only [fftshift2]
        rw [fft2_const]
        rw [if_neg]
        rintro ⟨h1, h2⟩
        have h1' : (k.val + (64 - 64 / 2)) % 64 = 0 := h1
        have h2' : (l.val + (64 - 64 / 2)) % 64 = 0 := h2
        have hk := k.isLt
        have hl := l.isLt
        exact hc ⟨by omega, by omega⟩
      rw [hzero, zero_mul]
  rw [hmask, ifftshift2_fftshift2, ifft2_fft2]
  simp

/-- Folding per-channel slice writes over a channel list: the final grid
holds the written value on every channel in the list and the accumulator's
value elsewhere. -/
theorem foldl_channel_write {h w c : ℕ} (F : Fin c → Fin h → Fin w → ℝ) :
    ∀ (l : List (Fin c)) (acc : Fin h → Fin w → Fin c → ℝ) (y : Fin h) (x : Fin w) (cj : Fin c),
      (l.foldl (fun result ci => fun y x cj => if cj = ci then F ci y x else result y x cj)
          acc) y x cj
        = if cj ∈ l then F cj y x else acc y x cj := by
  intro l
  induction l with
  | nil =>
    intro acc y x cj
    simp
  | cons a t ih =>
    intro acc y x cj
    rw [List.foldl_cons, ih]
    by_cases hmem : cj ∈ t
    · rw [if_pos hmem, if_pos (List.mem_cons_of_mem a hmem)]
    · rw [if_neg hmem]
      by_cases heq : cj = a
      · subst heq
        rw [if_pos (List.mem_cons_self cj t)]
        simp
      · rw [if_neg (fun hmc => (List.mem_cons.1 hmc).elim heq hmem)]
        simp [heq]

/-- Claim C8: the whole-image filter preserves height, width and channel
count (built into the types of `fft_remove_pattern`), and each output
channel equals the selected single-channel filter applied to that input
channel alone with the same parameters — channels never influence one
another. -/
theorem c8_channels_independent {h w c : ℕ} (image : Fin h → Fin w → Fin c → ℝ)
    (q : ℝ) (r pc lw : ℕ) (att : ℝ) (method : String)
    (y : Fin h) (x : Fin w) (ci : Fin c) :
    fft_remove_pattern image q r pc method lw att y x ci
      = (if method = "lines" then
          fft_filter_channel_lines (fun a b => image a b ci) lw pc att
        else
          fft_filter_channel (fun a b => image a b ci) q r pc) y x := by
  unfold fft_remove_pattern
  rw [foldl_channel_write
    (fun ck => (if method = "lines" then
      fft_filter_channel_lines (fun a b => image a b ck) lw pc att
    else
      fft_filter_channel (fun a b => image a b ck) q r pc))]
  rw [if_pos (List.mem_finRange ci)]

/-- An index lies in tile block `t` of width `n` exactly when its quotient
by `n` is `t`. -/
theorem block_iff {n t X : ℕ} (hn : 0 < n) :
    (t * n ≤ X ∧ X < t * n + n) ↔ X / n = t := by
  constructor
  · rintro ⟨h1, h2⟩
    exact Nat.div_eq_of_lt_le h1 (by rw [Nat.succ_mul]; omega)
  · rintro rfl
    refine ⟨Nat.div_mul_le_self X n, ?_⟩
    have hdm := Nat.div_add_mod X n
    have hm := Nat.mod_lt X hn
    calc X = n * (X / n) + X % n := hdm.symm
      _ < n * (X / n) + n := by omega
      _ = X / n * n + n := by ring

/-- One row of tile writes: folding `writeTile ty tx` over a list of column
indices writes the tile of the column block containing `X` when the row
block matches, and leaves the accumulator elsewhere. -/
theorem foldl_writeTile_row {α : Type} {h w c ty0 tx0 : ℕ} (hh : 0 < h) (hw : 0 < w)
    (ty : ℕ) (tileF2 : ℕ → Fin h → Fin w → Fin c → α) :
    ∀ (txs : List ℕ) (res : Fin (h * ty0) → Fin (w * tx0) → Fin c → α)
      (Y : Fin (h * ty0)) (X : Fin (w * tx0)) (ch : Fin c),
      (txs.foldl (fun r tx => writeTile ty tx (tileF2 tx) r) res) Y X ch
        = if Y.val / h = ty ∧ X.val / w ∈ txs
          then tileF2 (X.val / w) ⟨Y.val % h, Nat.mod_lt _ hh⟩ ⟨X.val % w, Nat.mod_lt _ hw⟩ ch
          else res Y X ch := by
  intro txs
  induction txs with
  | nil =>
    intro res Y X ch
    simp
  | cons tx rest ih =>
    intro res Y X ch
    rw [List.foldl_cons, ih]
    by_cases hrest : Y.val / h = ty ∧ X.val / w ∈ rest
    · rw [if_pos hrest, if_pos ⟨hrest.1, List.mem_cons_of_mem tx hrest.2⟩]
    · rw [if_neg hrest]
      simp only [writeTile]
      by_cases hblk : ty * h ≤ Y.val ∧ Y.val < ty * h + h ∧ tx * w ≤ X.val ∧ X.val < tx * w + w
      · rw [dif_pos hblk]
        have h1 : Y.val / h = ty := (block_iff hh).1 ⟨hblk.1, hblk.2.1⟩
        have h2 : X.val / w = tx := (block_iff hw).1 ⟨hblk.2.2.1, hblk.2.2.2⟩
        rw [if_pos ⟨h1, by rw [h2]; exact List.mem_cons_self tx rest⟩]
        have hYm : Y.val % h = Y.val - ty * h := by
          have hdm := Nat.div_add_mod Y.val h
          rw [h1] at hdm
          have hcm : h * ty = ty * h := Nat.mul_comm h ty
          omega
        have hXm : X.val % w = X.val - tx * w := by
          have hdm := Nat.div_add_mod X.val w
          rw [h2] at hdm
          have hcm : w * tx = tx * w := Nat.mul_comm w tx
          omega
        rw [h2]
        exact congr_arg₂ (fun a b => tileF2 tx a b ch)
          (Fin.ext (show Y.val - ty * h = Y.val % h by omega))
          (Fin.ext (show X.val - tx * w = X.val % w by omega))
      · rw [dif_neg hblk, if_neg]
        rintro ⟨hty', hmem⟩
        rcases List.mem_cons.1 hmem with heq | hmem2
        · refine hblk ?_
          have hb1 := (block_iff hh).2 hty'
          have hb2 := (block_iff hw).2 heq
          exact ⟨hb1.1, hb1.2, hb2.1, hb2.2⟩
        · exact hrest ⟨hty', hmem2⟩

/-- The full tile grid fold: the result holds, at each output pixel, the
tile of the block containing it (when its row block is in the processed list
and its column block is within range), and the initial grid elsewhere. -/
theorem foldl_writeTile_grid {α : Type} {h w c ty0 tx0 : ℕ} (hh : 0 < h) (hw : 0 < w)
    (tileF : ℕ → ℕ → Fin h → Fin w → Fin c → α) (tn : ℕ) :
    ∀ (tys : List ℕ) (res : Fin (h * ty0) → Fin (w * tx0) → Fin c → α)
      (Y : Fin (h * ty0)) (X : Fin (w * tx0)) (ch : Fin c),
      (tys.foldl (fun r ty =>
          (List.range tn).foldl (fun r2 tx => writeTile ty tx (tileF ty tx) r2) r) res) Y X ch
        = if Y.val / h ∈ tys ∧ X.val / w < tn
          then tileF (Y.val / h) (X.val / w)
            ⟨Y.val % h, Nat.mod_lt _ hh⟩ ⟨X.val % w, Nat.mod_lt _ hw⟩ ch
          else res Y X ch := by
  intro tys
  induction tys with
  | nil =>
    intro res Y X ch
    simp
  | cons ty rest ih =>
    intro res Y X ch
    rw [List.foldl_cons, ih]
    by_cases hrest : Y.val / h ∈ rest ∧ X.val / w < tn
    · rw [if_pos hrest, if_pos ⟨List.mem_cons_of_mem ty hrest.1, hrest.2⟩]
    · rw [if_neg hrest, foldl_writeTile_row hh hw ty (tileF ty) (List.range tn) res Y X ch]
      by_cases hrow : Y.val / h = ty ∧ X.val / w ∈ List.range tn
      · rw [if_pos hrow,
          if_pos ⟨by rw [hrow.1]; exact List.mem_cons_self ty rest, List.mem_range.1 hrow.2⟩,
          hrow.1]
      · rw [if_neg hrow, if_neg]
        rintro ⟨hmem, hlt⟩
        rcases List.mem_cons.1 hmem with heq | hmem2
        · exact hrow ⟨heq, List.mem_range.2 hlt⟩
        · exact hrest ⟨hmem2, hlt⟩

/-- Claim C10: the tiled texture has height `h*tiles_y`, width `w*tiles_x`
and the same channel count (fixed by the type of `create_tiled_texture`),
and the `h×w` block at tile coordinates `(tx, ty)` equals the input flipped
vertically iff `ty` is odd and horizontally iff `tx` is odd when `mirror` is
set (so the top-left tile is the unmodified input), and equals the
unmodified input in every tile when `mirror` is unset. -/
theorem c10_create_tiled_texture {α : Type} [Zero α] {h w c : ℕ}
    (image : Fin h → Fin w → Fin c → α) (tiles_x tiles_y : ℕ) (mirror : Bool)
    (Y : Fin (h * tiles_y)) (X : Fin (w * tiles_x)) (ch : Fin c)
    (ty tx i j : ℕ) (hty : ty < tiles_y) (htx : tx < tiles_x) (hi : i < h) (hj : j < w)
    (hY : Y.val = ty * h + i) (hX : X.val = tx * w + j) :
    create_tiled_texture image tiles_x tiles_y mirror Y X ch
      = image ⟨if mirror = true ∧ ty % 2 = 1 then h - 1 - i else i, by split <;> omega⟩
          ⟨if mirror = true ∧ tx % 2 = 1 then w - 1 - j else j, by split <;> omega⟩ ch := by
  have hh : 0 < h := by omega
  have hw : 0 < w := by omega
  have hdy : Y.val / h = ty := by
    refine (block_iff hh).1 ⟨?_, ?_⟩
    · rw [hY]
      exact Nat.le_add_right _ _
    · rw [hY]
      exact Nat.add_lt_add_left hi (ty * h)
  have hdx : X.val / w = tx := by
    refine (block_iff hw).1 ⟨?_, ?_⟩
    · rw [hX]
      exact Nat.le_add_right _ _
    · rw [hX]
      exact Nat.add_lt_add_left hj (tx * w)
  have hmy : Y.val % h = i := by
    have hdm := Nat.div_add_mod Y.val h
    rw [hdy] at hdm
    have hcm : h * ty = ty * h := Nat.mul_comm h ty
    omega
  have hmx : X.val % w = j := by
    have hdm := Nat.div_add_mod X.val w
    rw [hdx] at hdm
    have hcm : w * tx = tx * w := Nat.mul_comm w tx
    omega
  unfold create_tiled_texture
  rw [foldl_writeTile_grid hh hw
    (fun ty2 tx2 =>
      flipTile (mirror && decide (ty2 % 2 = 1)) (mirror && decide (tx2 % 2 = 1)) image)
    tiles_x (List.range tiles_y) (fun _ _ _ => 0) Y X ch]
  rw [if_pos ⟨by rw [hdy]; exact List.mem_range.2 hty, by rw [hdx]; exact htx⟩]
  rw [hdy, hdx]
  simp only [flipTile]
  refine congr_arg₂ (fun a b => image a b ch) (Fin.ext ?_) (Fin.ext ?_)
  · by_cases hm : mirror = true <;> by_cases hp : ty % 2 = 1 <;>
      simp [hm, hp, Fin.val_rev] <;> omega
  · by_cases hm : mirror = true <;> by_cases hp : tx % 2 = 1 <;>
      simp [hm, hp, Fin.val_rev] <;> omega

/-- Witness for `c10_create_tiled_texture`: a 1×1 image tiled 2×2 with
mirroring, read back at tile `(1, 1)`. -/
theorem c10_create_tiled_texture_witness :
    1 < 2 ∧ (0 : ℕ) < 1 ∧
      ((⟨1, by decide⟩ : Fin (1 * 2)).val = 1 * 1 + 0) ∧
      create_tiled_texture (fun _ _ _ => (5 : ℤ) : Fin 1 → Fin 1 → Fin 1 → ℤ) 2 2 true
          (⟨1, by decide⟩ : Fin (1 * 2)) (⟨1, by decide⟩ : Fin (1 * 2)) (⟨0, by decide⟩ : Fin 1)
        = (fun _ _ _ => (5 : ℤ) : Fin 1 → Fin 1 → Fin 1 → ℤ)
            (⟨if true = true ∧ 1 % 2 = 1 then 1 - 1 - 0 else 0, by split <;> decide⟩ : Fin 1)
            (⟨if true = true ∧ 1 % 2 = 1 then 1 - 1 - 0 else 0, by split <;> decide⟩ : Fin 1)
            (⟨0, by decide⟩ : Fin 1) :=
  ⟨by decide, by decide, rfl,
    c10_create_tiled_texture (fun _ _ _ => (5 : ℤ)) 2 2 true
      (⟨1, by decide⟩ : Fin (1 * 2)) (⟨1, by decide⟩ : Fin (1 * 2)) (⟨0, by decide⟩ : Fin 1)
      1 1 0 0 (by decide) (by decide) (by decide) (by decide) rfl rfl⟩
